import Mathlib

/-!
Verification of the sensor-fusion EKF core (`src/ekf.rs`).

The Rust filter works on `f64`; here it is embedded over `ℚ` with exact
arithmetic, `nalgebra`'s `Matrix4`/`Vector4` becoming `Matrix (Fin 4) (Fin 4) ℚ`
and `Fin 4 → ℚ`.  `Matrix4::try_inverse` is modelled by `tryInverse`, which
returns the inverse exactly when the determinant is nonzero, and the
`.unwrap()` on its result in `update` is modelled by the `panicked` outcome.
-/

namespace SensorFusionSim

open Matrix

abbrev Mat4 := Matrix (Fin 4) (Fin 4) ℚ

abbrev Vec4 := Fin 4 → ℚ

/-- `nalgebra::Vector2<f64>`. -/
structure Vec2 where
  x : ℚ
  y : ℚ

/-- `imu_sim::ImuReading`: a 2D acceleration vector. -/
structure ImuReading where
  accel : Vec2

/-- The EKF state from `src/ekf.rs`: state `[px, py, vx, vy]`,
4×4 covariance, fixed time step `dt`. -/
@[ext]
structure Ekf where
  state : Vec4
  covariance : Mat4
  dt : ℚ

/-- `Ekf::new`: `state = [x, y, 0, 0]`, `covariance = identity * 1.0`. -/
def Ekf.new (initialPos : Vec2) (dt : ℚ) : Ekf :=
  { state := ![initialPos.x, initialPos.y, 0, 0]
    covariance := (1 : Mat4)
    dt := dt }

/-- The state transition matrix `f` built in `Ekf::predict`. -/
def fMat (dt : ℚ) : Mat4 :=
  !![1, 0, dt, 0; 0, 1, 0, dt; 0, 0, 1, 0; 0, 0, 0, 1]

/-- The process noise covariance `q = Matrix4::identity() * 0.1`. -/
def qMat : Mat4 := (1 / 10 : ℚ) • (1 : Mat4)

/-- The measurement matrix `h` built in `Ekf::update`. -/
def hMat : Mat4 :=
  !![1, 0, 0, 0; 0, 1, 0, 0; 0, 0, 0, 0; 0, 0, 0, 0]

/-- The measurement noise covariance `r = Matrix4::identity() * 1.0`. -/
def rMat : Mat4 := (1 : Mat4)

/-- `Ekf::predict`: the four state components are updated sequentially,
so the position increments use the already-updated velocities; then
`covariance ← f * covariance * fᵀ + q`. -/
def Ekf.predict (e : Ekf) (imu : ImuReading) : Ekf :=
  let vx := e.state 2 + imu.accel.x * e.dt
  let vy := e.state 3 + imu.accel.y * e.dt
  let px := e.state 0 + vx * e.dt
  let py := e.state 1 + vy * e.dt
  { state := ![px, py, vx, vy]
    covariance := fMat e.dt * e.covariance * (fMat e.dt)ᵀ + qMat
    dt := e.dt }

/-- `Matrix4::try_inverse`: `some` of the inverse when the matrix is
invertible (nonzero determinant), `none` otherwise. -/
def tryInverse (m : Mat4) : Option Mat4 :=
  if m.det = 0 then none else some (m.det⁻¹ • m.adjugate)

/-- Outcome of `Ekf::update`.  The Rust method returns `()` and calls
`.unwrap()` on `try_inverse`; `panicked` records the process-aborting
panic of that unwrap, with the estimator exactly as it was. -/
inductive UpdateResult where
  | ok (e : Ekf)
  | panicked (e : Ekf)

/-- `Ekf::update`: Kalman gain `k = covariance * hᵀ * (h * covariance * hᵀ + r)⁻¹`
(unwrap panics if the innovation covariance is singular), innovation
`[gps.x - px, gps.y - py, 0, 0]`, then `state += k * innovation` and
`covariance ← (I - k * h) * covariance`. -/
def Ekf.update (e : Ekf) (gps : Vec2) : UpdateResult :=
  match tryInverse (hMat * e.covariance * hMatᵀ + rMat) with
  | none => .panicked e
  | some sInv =>
    let k := e.covariance * hMatᵀ * sInv
    let innovation : Vec4 := ![gps.x - e.state 0, gps.y - e.state 1, 0, 0]
    .ok { state := e.state + k.mulVec innovation
          covariance := (1 - k * hMat) * e.covariance
          dt := e.dt }

/-- `tryInverse` returns exactly the two-sided inverse when one exists. -/
lemma tryInverse_eq_of_inv (m B : Mat4) (h1 : m * B = 1) (h2 : B * m = 1) :
    tryInverse m = some B := by
  have hdet : m.det ≠ 0 := by
    intro h0
    have hd := congrArg Matrix.det h1
    rw [Matrix.det_mul, h0, zero_mul, Matrix.det_one] at hd
    exact zero_ne_one hd
  have hleft : m.det⁻¹ • m.adjugate * m = 1 := by
    rw [Matrix.smul_mul, Matrix.adjugate_mul, smul_smul, inv_mul_cancel₀ hdet, one_smul]
  have hB : m.det⁻¹ • m.adjugate = B := by
    calc m.det⁻¹ • m.adjugate = m.det⁻¹ • m.adjugate * (m * B) := by rw [h1, mul_one]
      _ = m.det⁻¹ • m.adjugate * m * B := by rw [mul_assoc]
      _ = 1 * B := by rw [hleft]
      _ = B := one_mul B
  unfold tryInverse
  rw [if_neg hdet, hB]

/-- The innovation covariance `h * P * hᵀ + r` in terms of the entries of `P`. -/
lemma sMat_eq (P : Mat4) : hMat * P * hMatᵀ + rMat
    = !![P 0 0 + 1, P 0 1, 0, 0; P 1 0, P 1 1 + 1, 0, 0; 0, 0, 1, 0; 0, 0, 0, 1] := by
  ext i j
  fin_cases i <;> fin_cases j <;>
    simp [hMat, rMat, Matrix.mul_apply, Fin.sum_univ_four, Matrix.transpose_apply,
      Matrix.one_apply, Matrix.vecHead, Matrix.vecTail, Matrix.vecMul, Matrix.dotProduct]

/-- The explicit two-sided inverse of the block innovation covariance
when its two-by-two determinant is nonzero. -/
lemma block_inv (a b c d : ℚ) (h : a * d - b * c ≠ 0) :
    (!![a, b, 0, 0; c, d, 0, 0; 0, 0, 1, 0; 0, 0, 0, 1] : Mat4)
        * !![d / (a * d - b * c), -b / (a * d - b * c), 0, 0;
             -c / (a * d - b * c), a / (a * d - b * c), 0, 0;
             0, 0, 1, 0; 0, 0, 0, 1] = 1
      ∧ (!![d / (a * d - b * c), -b / (a * d - b * c), 0, 0;
           -c / (a * d - b * c), a / (a * d - b * c), 0, 0;
           0, 0, 1, 0; 0, 0, 0, 1] : Mat4)
        * !![a, b, 0, 0; c, d, 0, 0; 0, 0, 1, 0; 0, 0, 0, 1] = 1 := by
  constructor <;>
    · ext i j
      fin_cases i <;> fin_cases j <;>
        · simp [Matrix.mul_apply, Fin.sum_univ_four, Matrix.one_apply,
            Matrix.vecHead, Matrix.vecTail, Matrix.vecMul, Matrix.dotProduct]
          try field_simp
          try ring

/-- Explicit inverse of the block innovation covariance when its
two-by-two determinant is nonzero. -/
lemma tryInverse_block (a b c d : ℚ) (h : a * d - b * c ≠ 0) :
    tryInverse !![a, b, 0, 0; c, d, 0, 0; 0, 0, 1, 0; 0, 0, 0, 1]
      = some !![d / (a * d - b * c), -b / (a * d - b * c), 0, 0;
                -c / (a * d - b * c), a / (a * d - b * c), 0, 0;
                0, 0, 1, 0; 0, 0, 0, 1] :=
  tryInverse_eq_of_inv _ _ (block_inv a b c d h).1 (block_inv a b c d h).2

/-- Inverse of the innovation covariance when it is diagonal. -/
lemma tryInverse_diagBlock (a d : ℚ) (ha : a ≠ 0) (hd : d ≠ 0) :
    tryInverse !![a, 0, 0, 0; 0, d, 0, 0; 0, 0, 1, 0; 0, 0, 0, 1]
      = some !![a⁻¹, 0, 0, 0; 0, d⁻¹, 0, 0; 0, 0, 1, 0; 0, 0, 0, 1] := by
  apply tryInverse_eq_of_inv <;>
    · ext i j
      fin_cases i <;> fin_cases j <;>
        · simp [Matrix.mul_apply, Fin.sum_univ_four, Matrix.one_apply,
            Matrix.vecHead, Matrix.vecTail, Matrix.vecMul, Matrix.dotProduct]
          try field_simp

/-- `update` succeeds whenever the two-by-two determinant of the
innovation covariance is nonzero. -/
lemma update_ok_of_det (e : Ekf) (gps : Vec2)
    (h : (e.covariance 0 0 + 1) * (e.covariance 1 1 + 1)
      - e.covariance 0 1 * e.covariance 1 0 ≠ 0) :
    ∃ e2, e.update gps = .ok e2 := by
  unfold Ekf.update
  rw [sMat_eq, tryInverse_block _ _ _ _ h]
  exact ⟨_, rfl⟩

/-- Entrywise closed form of a successful `update` when the covariance has
no coupling between the two measured coordinates. -/
lemma update_eq (e : Ekf) (gps : Vec2)
    (h01 : e.covariance 0 1 = 0) (h10 : e.covariance 1 0 = 0)
    (hA : e.covariance 0 0 + 1 ≠ 0) (hD : e.covariance 1 1 + 1 ≠ 0) :
    e.update gps = .ok
      { state := fun i => e.state i
          + e.covariance i 0 * (e.covariance 0 0 + 1)⁻¹ * (gps.x - e.state 0)
          + e.covariance i 1 * (e.covariance 1 1 + 1)⁻¹ * (gps.y - e.state 1)
        covariance := Matrix.of fun i j => e.covariance i j
          - e.covariance i 0 * (e.covariance 0 0 + 1)⁻¹ * e.covariance 0 j
          - e.covariance i 1 * (e.covariance 1 1 + 1)⁻¹ * e.covariance 1 j
        dt := e.dt } := by
  have hS : hMat * e.covariance * hMatᵀ + rMat
      = !![e.covariance 0 0 + 1, 0, 0, 0; 0, e.covariance 1 1 + 1, 0, 0;
           0, 0, 1, 0; 0, 0, 0, 1] := by
    rw [sMat_eq, h01, h10]
  unfold Ekf.update
  rw [hS, tryInverse_diagBlock _ _ hA hD]
  refine congrArg UpdateResult.ok (Ekf.ext ?_ ?_ rfl)
  · funext i
    simp [hMat, Matrix.mul_apply, Matrix.mulVec, Fin.sum_univ_four, Matrix.transpose_apply,
      Matrix.vecHead, Matrix.vecTail, Matrix.dotProduct]
    try ring
  · ext i j
    fin_cases i <;>
      · simp [hMat, Matrix.mul_apply, Matrix.sub_apply, Matrix.one_apply, Fin.sum_univ_four,
          Matrix.transpose_apply, Matrix.vecHead, Matrix.vecTail, Matrix.dotProduct]
        try ring

/-- A successful `update` never changes `dt`. -/
lemma update_dt (e : Ekf) (gps : Vec2) (e2 : Ekf) (h : e.update gps = .ok e2) :
    e2.dt = e.dt := by
  unfold Ekf.update at h
  cases htry : tryInverse (hMat * e.covariance * hMatᵀ + rMat) with
  | none => rw [htry] at h; exact absurd h (by simp)
  | some s =>
    rw [htry] at h
    cases h
    rfl

/-- Invariant satisfied by every covariance the filter can reach:
symmetric, no coupling between the x-part `{px, vx}` and the y-part
`{py, vy}`, and each of the two diagonal blocks positive semidefinite
with strictly positive diagonal. -/
def CovInv (P : Mat4) : Prop :=
  Pᵀ = P ∧
  P 0 1 = 0 ∧ P 0 3 = 0 ∧ P 2 1 = 0 ∧ P 2 3 = 0 ∧
  (0 < P 0 0 ∧ 0 < P 2 2 ∧ P 0 2 ^ 2 ≤ P 0 0 * P 2 2) ∧
  (0 < P 1 1 ∧ 0 < P 3 3 ∧ P 1 3 ^ 2 ≤ P 1 1 * P 3 3)

lemma symm_apply {P : Mat4} (h : Pᵀ = P) (i j : Fin 4) : P j i = P i j := by
  have h2 := congrFun (congrFun h i) j
  rwa [Matrix.transpose_apply] at h2

lemma covInv_one : CovInv (1 : Mat4) := by
  refine ⟨Matrix.transpose_one, ?_, ?_, ?_, ?_, ?_, ?_⟩ <;>
    · norm_num [Matrix.one_apply]
      try decide

/-- The quadratic form of a positive-semidefinite two-by-two block. -/
lemma quad_nonneg (a b c x y : ℚ) (ha : 0 < a) (h : b ^ 2 ≤ a * c) :
    0 ≤ a * x ^ 2 + 2 * b * x * y + c * y ^ 2 := by
  nlinarith [sq_nonneg (a * x + b * y), mul_nonneg (sub_nonneg.mpr h) (sq_nonneg y)]

/-- The covariance update of `predict` in entrywise form. -/
lemma predictCov_eq (t : ℚ) (P : Mat4) :
    fMat t * P * (fMat t)ᵀ + qMat = Matrix.of
      !![P 0 0 + t * P 2 0 + t * (P 0 2 + t * P 2 2) + 1 / 10,
         P 0 1 + t * P 2 1 + t * (P 0 3 + t * P 2 3),
         P 0 2 + t * P 2 2, P 0 3 + t * P 2 3;
         P 1 0 + t * P 3 0 + t * (P 1 2 + t * P 3 2),
         P 1 1 + t * P 3 1 + t * (P 1 3 + t * P 3 3) + 1 / 10,
         P 1 2 + t * P 3 2, P 1 3 + t * P 3 3;
         P 2 0 + t * P 2 2, P 2 1 + t * P 2 3, P 2 2 + 1 / 10, P 2 3;
         P 3 0 + t * P 3 2, P 3 1 + t * P 3 3, P 3 2, P 3 3 + 1 / 10] := by
  ext i j
  fin_cases i <;> fin_cases j <;>
    · simp [fMat, qMat, Matrix.mul_apply, Fin.sum_univ_four, Matrix.transpose_apply,
        Matrix.one_apply, Matrix.vecHead, Matrix.vecTail, Matrix.vecMul, Matrix.dotProduct]
      try ring

/-- `predict` preserves the covariance invariant, for every time step. -/
lemma covInv_predict (t : ℚ) {P : Mat4} (h : CovInv P) :
    CovInv (fMat t * P * (fMat t)ᵀ + qMat) := by
  obtain ⟨hsym, h01, h03, h21, h23, ⟨hp00, hp22, hdx⟩, ⟨hp11, hp33, hdy⟩⟩ := h
  have hs := fun i j => symm_apply hsym i j
  have h10 : P 1 0 = 0 := (hs 0 1).trans h01
  have h30 : P 3 0 = 0 := (hs 0 3).trans h03
  have h12 : P 1 2 = 0 := (hs 2 1).trans h21
  have h32 : P 3 2 = 0 := (hs 2 3).trans h23
  have hqx : 0 ≤ P 0 0 + 2 * t * P 0 2 + t ^ 2 * P 2 2 := by
    nlinarith [quad_nonneg (P 0 0) (P 0 2) (P 2 2) 1 t hp00 hdx]
  have hqy : 0 ≤ P 1 1 + 2 * t * P 1 3 + t ^ 2 * P 3 3 := by
    nlinarith [quad_nonneg (P 1 1) (P 1 3) (P 3 3) 1 t hp11 hdy]
  refine ⟨?_, ?_, ?_, ?_, ?_, ⟨?_, ?_, ?_⟩, ⟨?_, ?_, ?_⟩⟩
  · simp only [Matrix.transpose_add, Matrix.transpose_mul, Matrix.transpose_transpose,
      Matrix.transpose_smul, Matrix.transpose_one, qMat, hsym, Matrix.mul_assoc]
  · rw [predictCov_eq]
    simp [h01, h21, h03, h23]
  · rw [predictCov_eq]
    simp [h03, h23]
  · rw [predictCov_eq]
    simp [h21, h23]
  · rw [predictCov_eq]
    simp [h23]
  · rw [predictCov_eq]
    simp [hs 0 2]
    nlinarith [hqx]
  · rw [predictCov_eq]
    simp
    nlinarith [hp22]
  · rw [predictCov_eq]
    simp [hs 0 2]
    nlinarith [hdx, hqx, hp22]
  · rw [predictCov_eq]
    simp [hs 1 3]
    nlinarith [hqy]
  · rw [predictCov_eq]
    simp
    nlinarith [hp33]
  · rw [predictCov_eq]
    simp [hs 1 3]
    nlinarith [hdy, hqy, hp33]

/-- A successful `update` preserves the covariance invariant. -/
lemma covInv_update {P : Mat4} (h : CovInv P) :
    CovInv (Matrix.of fun i j => P i j
      - P i 0 * (P 0 0 + 1)⁻¹ * P 0 j
      - P i 1 * (P 1 1 + 1)⁻¹ * P 1 j) := by
  obtain ⟨hsym, h01, h03, h21, h23, ⟨hp00, hp22, hdx⟩, ⟨hp11, hp33, hdy⟩⟩ := h
  have hs := fun i j => symm_apply hsym i j
  have h10 : P 1 0 = 0 := (hs 0 1).trans h01
  have h30 : P 3 0 = 0 := (hs 0 3).trans h03
  have h12 : P 1 2 = 0 := (hs 2 1).trans h21
  have h32 : P 3 2 = 0 := (hs 2 3).trans h23
  have hA1 : (0 : ℚ) < P 0 0 + 1 := by linarith
  have hD1 : (0 : ℚ) < P 1 1 + 1 := by linarith
  have hA1' : P 0 0 + 1 ≠ 0 := ne_of_gt hA1
  have hD1' : P 1 1 + 1 ≠ 0 := ne_of_gt hD1
  have hu : (0 : ℚ) < (P 0 0 + 1)⁻¹ := inv_pos.mpr hA1
  have hv : (0 : ℚ) < (P 1 1 + 1)⁻¹ := inv_pos.mpr hD1
  have hf00 : P 0 0 - P 0 0 * (P 0 0 + 1)⁻¹ * P 0 0 = P 0 0 * (P 0 0 + 1)⁻¹ := by
    field_simp
    ring
  have hf02 : P 0 2 - P 0 0 * (P 0 0 + 1)⁻¹ * P 0 2 = P 0 2 * (P 0 0 + 1)⁻¹ := by
    field_simp
    ring
  have hf22 : P 2 2 - P 0 2 * (P 0 0 + 1)⁻¹ * P 0 2
      = (P 2 2 * (P 0 0 + 1) - P 0 2 ^ 2) * (P 0 0 + 1)⁻¹ := by
    field_simp
    ring
  have hg11 : P 1 1 - P 1 1 * (P 1 1 + 1)⁻¹ * P 1 1 = P 1 1 * (P 1 1 + 1)⁻¹ := by
    field_simp
    ring
  have hg13 : P 1 3 - P 1 1 * (P 1 1 + 1)⁻¹ * P 1 3 = P 1 3 * (P 1 1 + 1)⁻¹ := by
    field_simp
    ring
  have hg33 : P 3 3 - P 1 3 * (P 1 1 + 1)⁻¹ * P 1 3
      = (P 3 3 * (P 1 1 + 1) - P 1 3 ^ 2) * (P 1 1 + 1)⁻¹ := by
    field_simp
    ring
  refine ⟨?_, ?_, ?_, ?_, ?_, ⟨?_, ?_, ?_⟩, ⟨?_, ?_, ?_⟩⟩
  · ext i j
    simp only [Matrix.transpose_apply, Matrix.of_apply]
    rw [hs i j, hs 0 j, hs 1 j, hs 0 i, hs 1 i]
    ring
  · simp [h01]
  · simp [h01, h03]
  · simp [h01, h21]
  · simp [h03, h21, h23]
  · simp only [Matrix.of_apply, h01, mul_zero, zero_mul, sub_zero]
    rw [hf00]
    exact mul_pos hp00 hu
  · simp only [Matrix.of_apply, h21, zero_mul, sub_zero]
    rw [hs 0 2, hf22]
    apply mul_pos ?_ hu
    have hexp : P 2 2 * (P 0 0 + 1) - P 0 2 ^ 2
        = (P 0 0 * P 2 2 - P 0 2 ^ 2) + P 2 2 := by ring
    rw [hexp]
    have hx1 : 0 ≤ P 0 0 * P 2 2 - P 0 2 ^ 2 := by linarith
    linarith
  · simp only [Matrix.of_apply, h01, h21, mul_zero, zero_mul, sub_zero]
    rw [hf00, hs 0 2, hf02, hf22]
    have key : P 0 0 * (P 0 0 + 1)⁻¹ * ((P 2 2 * (P 0 0 + 1) - P 0 2 ^ 2) * (P 0 0 + 1)⁻¹)
        - (P 0 2 * (P 0 0 + 1)⁻¹) ^ 2
        = (P 0 0 + 1) * (P 0 0 * P 2 2 - P 0 2 ^ 2) * ((P 0 0 + 1)⁻¹) ^ 2 := by
      ring
    have hx1 : 0 ≤ P 0 0 * P 2 2 - P 0 2 ^ 2 := by linarith
    have hx2 : 0 ≤ (P 0 0 + 1) * (P 0 0 * P 2 2 - P 0 2 ^ 2) * ((P 0 0 + 1)⁻¹) ^ 2 :=
      mul_nonneg (mul_nonneg hA1.le hx1) (sq_nonneg _)
    linarith [key, hx2]
  · simp only [Matrix.of_apply, h10, zero_mul, mul_zero, sub_zero]
    rw [hg11]
    exact mul_pos hp11 hv
  · simp only [Matrix.of_apply, h30, zero_mul, sub_zero]
    rw [hs 1 3, hg33]
    apply mul_pos ?_ hv
    have hexp : P 3 3 * (P 1 1 + 1) - P 1 3 ^ 2
        = (P 1 1 * P 3 3 - P 1 3 ^ 2) + P 3 3 := by ring
    rw [hexp]
    have hy1 : 0 ≤ P 1 1 * P 3 3 - P 1 3 ^ 2 := by linarith
    linarith
  · simp only [Matrix.of_apply, h10, h30, zero_mul, mul_zero, sub_zero]
    rw [hg11, hs 1 3, hg13, hg33]
    have key : P 1 1 * (P 1 1 + 1)⁻¹ * ((P 3 3 * (P 1 1 + 1) - P 1 3 ^ 2) * (P 1 1 + 1)⁻¹)
        - (P 1 3 * (P 1 1 + 1)⁻¹) ^ 2
        = (P 1 1 + 1) * (P 1 1 * P 3 3 - P 1 3 ^ 2) * ((P 1 1 + 1)⁻¹) ^ 2 := by
      ring
    have hy1 : 0 ≤ P 1 1 * P 3 3 - P 1 3 ^ 2 := by linarith
    have hy2 : 0 ≤ (P 1 1 + 1) * (P 1 1 * P 3 3 - P 1 3 ^ 2) * ((P 1 1 + 1)⁻¹) ^ 2 :=
      mul_nonneg (mul_nonneg hD1.le hy1) (sq_nonneg _)
    linarith [key, hy2]

/-- All estimator values reachable from `Ekf::new p0 dt0` through
`predict` calls and successful `update` calls. -/
inductive ReachableFrom (p0 : Vec2) (dt0 : ℚ) : Ekf → Prop where
  | base : ReachableFrom p0 dt0 (Ekf.new p0 dt0)
  | predictStep (e : Ekf) (imu : ImuReading) :
      ReachableFrom p0 dt0 e → ReachableFrom p0 dt0 (e.predict imu)
  | updateStep (e : Ekf) (gps : Vec2) (e2 : Ekf) :
      ReachableFrom p0 dt0 e → e.update gps = .ok e2 → ReachableFrom p0 dt0 e2

/-- Every reachable covariance satisfies the invariant. -/
lemma reachable_covInv {p0 : Vec2} {dt0 : ℚ} {e : Ekf}
    (h : ReachableFrom p0 dt0 e) : CovInv e.covariance := by
  induction h with
  | base => exact covInv_one
  | predictStep e imu _ ih => exact covInv_predict e.dt ih
  | updateStep e gps e2 _ hupd ih =>
    obtain ⟨hsym, h01, h03, h21, h23, hx, hy⟩ := ih
    have h10 : e.covariance 1 0 = 0 := (symm_apply hsym 0 1).trans h01
    have hA : e.covariance 0 0 + 1 ≠ 0 := by
      have := hx.1
      intro hc
      linarith
    have hD : e.covariance 1 1 + 1 ≠ 0 := by
      have := hy.1
      intro hc
      linarith
    have heq := update_eq e gps h01 h10 hA hD
    rw [hupd] at heq
    injection heq with h2
    rw [h2]
    exact covInv_update ⟨hsym, h01, h03, h21, h23, hx, hy⟩

/-- The invariant implies the quadratic form of the covariance is
nonnegative. -/
lemma covInv_psd {P : Mat4} (h : CovInv P) (x : Vec4) : 0 ≤ x ⬝ᵥ P.mulVec x := by
  obtain ⟨hsym, h01, h03, h21, h23, ⟨hp00, hp22, hdx⟩, ⟨hp11, hp33, hdy⟩⟩ := h
  have hs := fun i j => symm_apply hsym i j
  have h10 : P 1 0 = 0 := (hs 0 1).trans h01
  have h30 : P 3 0 = 0 := (hs 0 3).trans h03
  have h12 : P 1 2 = 0 := (hs 2 1).trans h21
  have h32 : P 3 2 = 0 := (hs 2 3).trans h23
  have e1 := quad_nonneg (P 0 0) (P 0 2) (P 2 2) (x 0) (x 2) hp00 hdx
  have e2 := quad_nonneg (P 1 1) (P 1 3) (P 3 3) (x 1) (x 3) hp11 hdy
  simp only [Matrix.dotProduct, Matrix.mulVec, Fin.sum_univ_four,
    h01, h03, h21, h23, h10, h30, h12, h32, hs 0 2, hs 1 3]
  nlinarith [e1, e2]

/-! ### Claim theorems -/

/-- C3: from state `[0,0,0,0]` with `dt = 0.01`, a single `predict({1,1})`
produces exactly the state `[0.0001, 0.0001, 0.01, 0.01]`: the velocity is
updated first by `a*dt` and the position then uses the already-updated
velocity times the same `dt`. -/
theorem predict_scenario_A :
    ((Ekf.new ⟨0, 0⟩ (1 / 100)).predict ⟨⟨1, 1⟩⟩).state
      = ![1 / 10000, 1 / 10000, 1 / 100, 1 / 100] := by
  funext i
  fin_cases i <;> norm_num [Ekf.new, Ekf.predict]

/-- C9: `new` is total in `initial_position` and `dt` (no validation of
`dt`), producing state `[x, y, 0, 0]` and the 4×4 identity covariance. -/
theorem new_spec (p : Vec2) (dt : ℚ) :
    (Ekf.new p dt).state = ![p.x, p.y, 0, 0]
      ∧ (Ekf.new p dt).covariance = 1
      ∧ (Ekf.new p dt).dt = dt :=
  ⟨rfl, rfl, rfl⟩

/-- C10: `dt` fixed at construction is never modified by any later
`predict` or successful `update`. -/
theorem dt_immutable (p0 : Vec2) (dt0 : ℚ) (e : Ekf)
    (h : ReachableFrom p0 dt0 e) : e.dt = dt0 := by
  induction h with
  | base => rfl
  | predictStep e imu _ ih => exact ih
  | updateStep e gps e2 _ hupd ih => rw [update_dt e gps e2 hupd, ih]

theorem dt_immutable_witness :
    ((Ekf.new ⟨0, 0⟩ (1 / 100)).predict ⟨⟨1, 1⟩⟩).dt = 1 / 100 :=
  dt_immutable ⟨0, 0⟩ (1 / 100) _ (ReachableFrom.predictStep _ _ ReachableFrom.base)

/-- An estimator value whose innovation covariance is exactly singular. -/
def singularEkf : Ekf :=
  { state := ![0, 0, 0, 0]
    covariance := !![-1, 0, 0, 0; 0, -1, 0, 0; 0, 0, 1, 0; 0, 0, 0, 1]
    dt := 1 / 100 }

/-- C1: when the innovation covariance is singular, `Ekf::update` does not
return a recoverable typed error: it calls `.unwrap()` on `try_inverse`
and panics, aborting the process (its Rust return type is `()`, not a
`Result`).  The estimator fields are untouched at the panic point. -/
theorem update_panics_on_singular :
    singularEkf.update ⟨0, 0⟩ = .panicked singularEkf := by
  have hS : hMat * singularEkf.covariance * hMatᵀ + rMat
      = !![0, 0, 0, 0; 0, 0, 0, 0; 0, 0, 1, 0; 0, 0, 0, 1] := by
    rw [sMat_eq]
    ext i j
    fin_cases i <;> fin_cases j <;> norm_num [singularEkf]
  have hdet : (!![0, 0, 0, 0; 0, 0, 0, 0; 0, 0, 1, 0; 0, 0, 0, 1] : Mat4).det = 0 := by
    apply Matrix.det_eq_zero_of_row_eq_zero 0
    intro j
    fin_cases j <;> norm_num
  unfold Ekf.update
  rw [hS]
  unfold tryInverse
  rw [if_pos hdet]

/-- C2: a successful `update` computes exactly the stated Kalman
equations: with `S = H * P * Hᵀ + R` invertible (two-sided inverse `B`),
the gain is `K = P * Hᵀ * B`, the innovation is
`[gps.x - px, gps.y - py, 0, 0]`, the new state is `state + K * innovation`
and the new covariance is `(I - K * H) * P`; moreover `H` has its only
nonzero entries `H[0,0] = H[1,1] = 1` and `R` is a fixed diagonal matrix. -/
theorem update_success_formula (e : Ekf) (gps : Vec2) (B : Mat4)
    (h1 : (hMat * e.covariance * hMatᵀ + rMat) * B = 1)
    (h2 : B * (hMat * e.covariance * hMatᵀ + rMat) = 1) :
    e.update gps = .ok
      { state := e.state + (e.covariance * hMatᵀ * B).mulVec
          ![gps.x - e.state 0, gps.y - e.state 1, 0, 0]
        covariance := (1 - e.covariance * hMatᵀ * B * hMat) * e.covariance
        dt := e.dt }
      ∧ hMat 0 0 = 1 ∧ hMat 1 1 = 1
      ∧ (∀ i j : Fin 4, hMat i j ≠ 0 → (i = 0 ∧ j = 0) ∨ (i = 1 ∧ j = 1))
      ∧ rMat = Matrix.diagonal ![1, 1, 1, 1] := by
  refine ⟨?_, rfl, rfl, ?_, ?_⟩
  · unfold Ekf.update
    rw [tryInverse_eq_of_inv _ B h1 h2]
  · intro i j hij
    fin_cases i <;> fin_cases j <;>
      simp [hMat, Matrix.vecHead, Matrix.vecTail] at hij ⊢
  · ext i j
    fin_cases i <;> fin_cases j <;>
      · norm_num [rMat, Matrix.one_apply, Matrix.diagonal]
        try decide

def bWitness : Mat4 := !![1 / 2, 0, 0, 0; 0, 1 / 2, 0, 0; 0, 0, 1, 0; 0, 0, 0, 1]

def ekfWitness : Ekf := Ekf.new ⟨0, 0⟩ (1 / 100)

def gpsWitness : Vec2 := ⟨1, 2⟩

theorem update_success_formula_witness :
    ((hMat * ekfWitness.covariance * hMatᵀ + rMat) * bWitness = 1)
      ∧ (bWitness * (hMat * ekfWitness.covariance * hMatᵀ + rMat) = 1)
      ∧ ekfWitness.update gpsWitness = .ok
          { state := ekfWitness.state
              + (ekfWitness.covariance * hMatᵀ * bWitness).mulVec
                ![gpsWitness.x - ekfWitness.state 0, gpsWitness.y - ekfWitness.state 1, 0, 0]
            covariance := (1 - ekfWitness.covariance * hMatᵀ * bWitness * hMat)
              * ekfWitness.covariance
            dt := ekfWitness.dt } := by
  have h1 : (hMat * ekfWitness.covariance * hMatᵀ + rMat) * bWitness = 1 := by
    ext i j
    fin_cases i <;> fin_cases j <;>
      · norm_num [bWitness, ekfWitness, Ekf.new, hMat, rMat, Matrix.mul_apply,
          Fin.sum_univ_four, Matrix.transpose_apply, Matrix.one_apply,
          Matrix.vecHead, Matrix.vecTail, Matrix.vecMul, Matrix.dotProduct]
        try decide
  have h2 : bWitness * (hMat * ekfWitness.covariance * hMatᵀ + rMat) = 1 := by
    ext i j
    fin_cases i <;> fin_cases j <;>
      · norm_num [bWitness, ekfWitness, Ekf.new, hMat, rMat, Matrix.mul_apply,
          Fin.sum_univ_four, Matrix.transpose_apply, Matrix.one_apply,
          Matrix.vecHead, Matrix.vecTail, Matrix.vecMul, Matrix.dotProduct]
        try decide
  exact ⟨h1, h2, (update_success_formula ekfWitness gpsWitness bWitness h1 h2).1⟩

/-- C4: the covariance matrix is symmetric and positive semidefinite
after construction and remains so after every `predict` and every
successful `update`, along every call sequence. -/
theorem covariance_symm_psd (p0 : Vec2) (dt0 : ℚ) (e : Ekf)
    (h : ReachableFrom p0 dt0 e) :
    e.covarianceᵀ = e.covariance ∧ ∀ x : Vec4, 0 ≤ x ⬝ᵥ e.covariance.mulVec x :=
  ⟨(reachable_covInv h).1, covInv_psd (reachable_covInv h)⟩

theorem covariance_symm_psd_witness :
    ((Ekf.new ⟨0, 0⟩ (1 / 100)).predict ⟨⟨1, 1⟩⟩).covarianceᵀ
        = ((Ekf.new ⟨0, 0⟩ (1 / 100)).predict ⟨⟨1, 1⟩⟩).covariance
      ∧ 0 ≤ ![1, -2, 3, -4] ⬝ᵥ
          ((Ekf.new ⟨0, 0⟩ (1 / 100)).predict ⟨⟨1, 1⟩⟩).covariance.mulVec ![1, -2, 3, -4] :=
  ⟨(covariance_symm_psd ⟨0, 0⟩ (1 / 100) _
      (ReachableFrom.predictStep _ _ ReachableFrom.base)).1,
   (covariance_symm_psd ⟨0, 0⟩ (1 / 100) _
      (ReachableFrom.predictStep _ _ ReachableFrom.base)).2 ![1, -2, 3, -4]⟩

/-- C5: whenever the stored covariance is positive semidefinite, the
innovation covariance `S = H * P * Hᵀ + R` has a two-sided inverse, so the
`try_inverse` failure branch inside `update` is unreachable: `update`
returns `ok` on every reading. -/
theorem update_never_fails_of_psd (e : Ekf) (gps : Vec2)
    (hpsd : ∀ x : Vec4, 0 ≤ x ⬝ᵥ e.covariance.mulVec x) :
    (∃ B : Mat4, (hMat * e.covariance * hMatᵀ + rMat) * B = 1
      ∧ B * (hMat * e.covariance * hMatᵀ + rMat) = 1)
      ∧ ∃ e2, e.update gps = .ok e2 := by
  have hA0 : 0 ≤ e.covariance 0 0 := by
    have h := hpsd ![1, 0, 0, 0]
    simpa [Matrix.dotProduct, Matrix.mulVec, Fin.sum_univ_four] using h
  have hD0 : 0 ≤ e.covariance 1 1 := by
    have h := hpsd ![0, 1, 0, 0]
    simpa [Matrix.dotProduct, Matrix.mulVec, Fin.sum_univ_four] using h
  have hkey := hpsd
    ![e.covariance 1 1 + 1, -(e.covariance 0 1 + e.covariance 1 0) / 2, 0, 0]
  simp [Matrix.dotProduct, Matrix.mulVec, Fin.sum_univ_four,
    Matrix.vecHead, Matrix.vecTail] at hkey
  have hdelta : 0 < (e.covariance 0 0 + 1) * (e.covariance 1 1 + 1)
      - e.covariance 0 1 * e.covariance 1 0 := by
    nlinarith [hkey, hA0, hD0, sq_nonneg (e.covariance 0 1 - e.covariance 1 0)]
  refine ⟨?_, update_ok_of_det e gps (ne_of_gt hdelta)⟩
  rw [sMat_eq]
  exact ⟨_, block_inv _ _ _ _ (ne_of_gt hdelta)⟩

theorem update_never_fails_of_psd_witness :
    (∃ B : Mat4, (hMat * (Ekf.new ⟨5, 7⟩ 1).covariance * hMatᵀ + rMat) * B = 1
      ∧ B * (hMat * (Ekf.new ⟨5, 7⟩ 1).covariance * hMatᵀ + rMat) = 1)
      ∧ ∃ e2, (Ekf.new ⟨5, 7⟩ 1).update ⟨3, 4⟩ = .ok e2 :=
  update_never_fails_of_psd (Ekf.new ⟨5, 7⟩ 1) ⟨3, 4⟩ (by
    intro x
    simp [Ekf.new, Matrix.mulVec, Matrix.dotProduct, Fin.sum_univ_four, Matrix.one_apply]
    nlinarith [sq_nonneg (x 0), sq_nonneg (x 1), sq_nonneg (x 2), sq_nonneg (x 3)])

/-- C7: after any `predict`, an `update` whose reading equals the
predicted position leaves both position components of the state unchanged
(the innovation is zero) and strictly decreases both position diagonal
entries of the covariance. -/
theorem update_confirming (p0 : Vec2) (dt0 : ℚ) (e : Ekf) (imu : ImuReading)
    (h : ReachableFrom p0 dt0 e) :
    ∃ e2, (e.predict imu).update
        ⟨(e.predict imu).state 0, (e.predict imu).state 1⟩ = .ok e2
      ∧ e2.state 0 = (e.predict imu).state 0
      ∧ e2.state 1 = (e.predict imu).state 1
      ∧ e2.covariance 0 0 < (e.predict imu).covariance 0 0
      ∧ e2.covariance 1 1 < (e.predict imu).covariance 1 1 := by
  obtain ⟨hsym, h01, h03, h21, h23, hx, hy⟩ :=
    reachable_covInv (ReachableFrom.predictStep e imu h)
  have h10 : (e.predict imu).covariance 1 0 = 0 := (symm_apply hsym 0 1).trans h01
  have hA1 : (0 : ℚ) < (e.predict imu).covariance 0 0 + 1 := by linarith [hx.1]
  have hD1 : (0 : ℚ) < (e.predict imu).covariance 1 1 + 1 := by linarith [hy.1]
  have heq := update_eq (e.predict imu)
    ⟨(e.predict imu).state 0, (e.predict imu).state 1⟩
    h01 h10 (ne_of_gt hA1) (ne_of_gt hD1)
  refine ⟨_, heq, ?_, ?_, ?_, ?_⟩
  · simp
  · simp
  · simp only [Matrix.of_apply, h01, zero_mul, mul_zero, sub_zero]
    have hpos : 0 < (e.predict imu).covariance 0 0 * ((e.predict imu).covariance 0 0 + 1)⁻¹
        * (e.predict imu).covariance 0 0 :=
      mul_pos (mul_pos hx.1 (inv_pos.mpr hA1)) hx.1
    linarith
  · simp only [Matrix.of_apply, h10, zero_mul, mul_zero, sub_zero]
    have hpos : 0 < (e.predict imu).covariance 1 1 * ((e.predict imu).covariance 1 1 + 1)⁻¹
        * (e.predict imu).covariance 1 1 :=
      mul_pos (mul_pos hy.1 (inv_pos.mpr hD1)) hy.1
    linarith

theorem update_confirming_witness :
    ∃ e2, ((Ekf.new ⟨0, 0⟩ (1 / 100)).predict ⟨⟨1, 1⟩⟩).update
        ⟨((Ekf.new ⟨0, 0⟩ (1 / 100)).predict ⟨⟨1, 1⟩⟩).state 0,
         ((Ekf.new ⟨0, 0⟩ (1 / 100)).predict ⟨⟨1, 1⟩⟩).state 1⟩ = .ok e2
      ∧ e2.state 0 = ((Ekf.new ⟨0, 0⟩ (1 / 100)).predict ⟨⟨1, 1⟩⟩).state 0
      ∧ e2.state 1 = ((Ekf.new ⟨0, 0⟩ (1 / 100)).predict ⟨⟨1, 1⟩⟩).state 1
      ∧ e2.covariance 0 0 < ((Ekf.new ⟨0, 0⟩ (1 / 100)).predict ⟨⟨1, 1⟩⟩).covariance 0 0
      ∧ e2.covariance 1 1 < ((Ekf.new ⟨0, 0⟩ (1 / 100)).predict ⟨⟨1, 1⟩⟩).covariance 1 1 :=
  update_confirming ⟨0, 0⟩ (1 / 100) (Ekf.new ⟨0, 0⟩ (1 / 100)) ⟨⟨1, 1⟩⟩ ReachableFrom.base

/-- `m` lies strictly between `a` and `b` (in whichever order). -/
def strictlyBetween (a m b : ℚ) : Prop := (a < m ∧ m < b) ∨ (b < m ∧ m < a)

/-- C8: for a reading whose coordinates both differ from the predicted
position, the post-update position lies strictly between the pre-update
position and the reading, separately in each dimension (the effective
per-dimension gain lies in (0,1)). -/
theorem update_pulls (p0 : Vec2) (dt0 : ℚ) (e : Ekf) (gps : Vec2)
    (h : ReachableFrom p0 dt0 e)
    (hgx : gps.x ≠ e.state 0) (hgy : gps.y ≠ e.state 1) :
    ∃ e2, e.update gps = .ok e2
      ∧ strictlyBetween (e.state 0) (e2.state 0) gps.x
      ∧ strictlyBetween (e.state 1) (e2.state 1) gps.y := by
  obtain ⟨hsym, h01, h03, h21, h23, hx, hy⟩ := reachable_covInv h
  have h10 : e.covariance 1 0 = 0 := (symm_apply hsym 0 1).trans h01
  have hA1 : (0 : ℚ) < e.covariance 0 0 + 1 := by linarith [hx.1]
  have hD1 : (0 : ℚ) < e.covariance 1 1 + 1 := by linarith [hy.1]
  have hu : (0 : ℚ) < (e.covariance 0 0 + 1)⁻¹ := inv_pos.mpr hA1
  have hv : (0 : ℚ) < (e.covariance 1 1 + 1)⁻¹ := inv_pos.mpr hD1
  have hu1 : e.covariance 0 0 * (e.covariance 0 0 + 1)⁻¹ < 1 := by
    have hlt := mul_lt_mul_of_pos_right
      (show e.covariance 0 0 < e.covariance 0 0 + 1 by linarith) hu
    rwa [mul_inv_cancel₀ (ne_of_gt hA1)] at hlt
  have hv1 : e.covariance 1 1 * (e.covariance 1 1 + 1)⁻¹ < 1 := by
    have hlt := mul_lt_mul_of_pos_right
      (show e.covariance 1 1 < e.covariance 1 1 + 1 by linarith) hv
    rwa [mul_inv_cancel₀ (ne_of_gt hD1)] at hlt
  have heq := update_eq e gps h01 h10 (ne_of_gt hA1) (ne_of_gt hD1)
  refine ⟨_, heq, ?_, ?_⟩
  · simp only [h01, zero_mul, mul_zero, add_zero]
    rcases lt_or_gt_of_ne hgx with hcase | hcase
    · have hnu : gps.x - e.state 0 < 0 := by linarith
      have t1 : e.covariance 0 0 * (e.covariance 0 0 + 1)⁻¹ * (gps.x - e.state 0) < 0 :=
        mul_neg_of_pos_of_neg (mul_pos hx.1 hu) hnu
      have t2 := mul_lt_mul_of_neg_right hu1 hnu
      exact Or.inr ⟨by nlinarith, by linarith⟩
    · have hnu : 0 < gps.x - e.state 0 := by linarith
      have t1 : 0 < e.covariance 0 0 * (e.covariance 0 0 + 1)⁻¹ * (gps.x - e.state 0) :=
        mul_pos (mul_pos hx.1 hu) hnu
      have t2 := mul_lt_mul_of_pos_right hu1 hnu
      exact Or.inl ⟨by linarith, by nlinarith⟩
  · simp only [h10, zero_mul, mul_zero, add_zero, zero_add]
    rcases lt_or_gt_of_ne hgy with hcase | hcase
    · have hnu : gps.y - e.state 1 < 0 := by linarith
      have t1 : e.covariance 1 1 * (e.covariance 1 1 + 1)⁻¹ * (gps.y - e.state 1) < 0 :=
        mul_neg_of_pos_of_neg (mul_pos hy.1 hv) hnu
      have t2 := mul_lt_mul_of_neg_right hv1 hnu
      exact Or.inr ⟨by nlinarith, by linarith⟩
    · have hnu : 0 < gps.y - e.state 1 := by linarith
      have t1 : 0 < e.covariance 1 1 * (e.covariance 1 1 + 1)⁻¹ * (gps.y - e.state 1) :=
        mul_pos (mul_pos hy.1 hv) hnu
      have t2 := mul_lt_mul_of_pos_right hv1 hnu
      exact Or.inl ⟨by linarith, by nlinarith⟩

theorem update_pulls_witness :
    ∃ e2, (Ekf.new ⟨0, 0⟩ (1 / 100)).update ⟨1, 2⟩ = .ok e2
      ∧ strictlyBetween ((Ekf.new ⟨0, 0⟩ (1 / 100)).state 0) (e2.state 0) (1 : ℚ)
      ∧ strictlyBetween ((Ekf.new ⟨0, 0⟩ (1 / 100)).state 1) (e2.state 1) (2 : ℚ) :=
  update_pulls ⟨0, 0⟩ (1 / 100) (Ekf.new ⟨0, 0⟩ (1 / 100)) ⟨1, 2⟩ ReachableFrom.base
    (by norm_num [Ekf.new]) (by norm_num [Ekf.new])

/-- The zero-input scenario: start at `new((0,0), 0.01)` and call
`predict({0,0})` repeatedly. -/
def zeroTraj : ℕ → Ekf
  | 0 => Ekf.new ⟨0, 0⟩ (1 / 100)
  | n + 1 => (zeroTraj n).predict ⟨⟨0, 0⟩⟩

/-- C6 counterexample: the first `predict({0,0})` increases the (0,0)
covariance entry from `1` to `1.1001`, i.e. by `0.1001`, not by the
process-noise magnitude `0.1`. -/
theorem zeroTraj_increment_ne_q :
    (zeroTraj 1).covariance 0 0 - (zeroTraj 0).covariance 0 0 ≠ 1 / 10 := by
  norm_num [zeroTraj, Ekf.new, Ekf.predict, fMat, qMat, Matrix.mul_apply,
    Fin.sum_univ_four, Matrix.transpose_apply, Matrix.one_apply,
    Matrix.vecHead, Matrix.vecTail]

lemma zeroTraj_inv (n : ℕ) :
    (zeroTraj n).state = ![0, 0, 0, 0] ∧ (zeroTraj n).dt = 1 / 100
      ∧ 0 ≤ (zeroTraj n).covariance 0 2 ∧ 0 ≤ (zeroTraj n).covariance 2 0
      ∧ 0 ≤ (zeroTraj n).covariance 2 2
      ∧ 0 ≤ (zeroTraj n).covariance 1 3 ∧ 0 ≤ (zeroTraj n).covariance 3 1
      ∧ 0 ≤ (zeroTraj n).covariance 3 3 := by
  induction n with
  | zero =>
    refine ⟨rfl, rfl, ?_, ?_, ?_, ?_, ?_, ?_⟩ <;>
      · norm_num [zeroTraj, Ekf.new, Matrix.one_apply]
        try decide
  | succ n ih =>
    obtain ⟨hst, hdt, h02, h20, h22, h13, h31, h33⟩ := ih
    have hcov0 : (zeroTraj (n + 1)).covariance
        = fMat ((zeroTraj n).dt) * (zeroTraj n).covariance
          * (fMat ((zeroTraj n).dt))ᵀ + qMat := rfl
    rw [hdt, predictCov_eq] at hcov0
    refine ⟨?_, ?_, ?_, ?_, ?_, ?_, ?_, ?_⟩
    · funext i
      fin_cases i <;> simp [zeroTraj, Ekf.predict, hst, hdt]
    · simp [zeroTraj, Ekf.predict, hdt]
    · rw [hcov0]
      simp only [Matrix.of_apply, Matrix.cons_val_zero, Matrix.cons_val_one,
        Matrix.head_cons, Matrix.cons_val_two, Matrix.cons_val_three,
        Matrix.vecHead, Matrix.vecTail]
      simp
      linarith
    · rw [hcov0]
      simp
      linarith
    · rw [hcov0]
      simp
      linarith
    · rw [hcov0]
      simp
      linarith
    · rw [hcov0]
      simp
      linarith
    · rw [hcov0]
      simp
      linarith

/-- C6 (amended): with zero acceleration from `new((0,0), 0.01)`, every
`predict({0,0})` keeps the state at `[0,0,0,0]`, and each call strictly
increases every diagonal covariance entry, by at least the process-noise
magnitude `0.1`; the increase is exactly `0.1` on the velocity entries. -/
theorem zero_predict_pure_integration (n : ℕ) :
    (zeroTraj n).state = ![0, 0, 0, 0]
      ∧ (∀ i : Fin 4, (zeroTraj n).covariance i i < (zeroTraj (n + 1)).covariance i i
          ∧ (zeroTraj n).covariance i i + 1 / 10 ≤ (zeroTraj (n + 1)).covariance i i)
      ∧ (zeroTraj (n + 1)).covariance 2 2 = (zeroTraj n).covariance 2 2 + 1 / 10
      ∧ (zeroTraj (n + 1)).covariance 3 3 = (zeroTraj n).covariance 3 3 + 1 / 10 := by
  obtain ⟨hst, hdt, h02, h20, h22, h13, h31, h33⟩ := zeroTraj_inv n
  have hcov0 : (zeroTraj (n + 1)).covariance
      = fMat ((zeroTraj n).dt) * (zeroTraj n).covariance
        * (fMat ((zeroTraj n).dt))ᵀ + qMat := rfl
  rw [hdt, predictCov_eq] at hcov0
  refine ⟨hst, ?_, ?_, ?_⟩
  · intro i
    fin_cases i <;>
      · constructor <;>
          · rw [hcov0]
            simp
            try linarith
  · rw [hcov0]
    simp
  · rw [hcov0]
    simp

end SensorFusionSim
